import Mathlib

/-!
Verification development for the `waitlist` crate: an ordered list of
wakers supporting FIFO wakeup (`notify_one`, `notify_all`, `notify_any`),
cancellation with notification forwarding, and handle re-registration.

The model below is a shallow embedding of `src/lib.rs`.  Wakers are
identified by natural numbers; invoking a waker is recorded by appending
its identifier to a wake list returned alongside the new state.  All
`usize` arithmetic is modelled as `Nat` with explicit wrapping modulo
`2 ^ 64`; the unguarded `notified_count -= 1` decrements of the source are
modelled with truncating `Nat` subtraction (claim C10 addresses when they
can underflow).
-/

namespace WL

/-- Modulus of `usize` arithmetic: `2 ^ 64`. -/
def USIZE : Nat := 18446744073709551616

/-- Wrapping increment, as in `self.next_key.wrapping_add(1)`. -/
def wrapAdd1 (a : Nat) : Nat := (a + 1) % USIZE

/-- Flag bit: set when there is at least one notifiable waker (`1 << 1`). -/
def WAITING : Nat := 2

/-- Flag bit: set when at least one task has been notified but not yet removed (`1 << 2`). -/
def NOTIFIED : Nat := 4

/-- One entry of the queue: the handle key and the waker (identified by a number). -/
structure Waiter where
  key : Nat
  waker : Nat
deriving DecidableEq, Repr

/-- The state protected by the mutex: FIFO queue, count of notified-but-unremoved
tasks, and the key-allocation bookkeeping (`min_key`, `next_key`). -/
structure Inner where
  queue : List Waiter
  notified_count : Nat
  min_key : Nat
  next_key : Nat
deriving DecidableEq, Repr

/-- Test whether the queue holds an entry with the given key
(`self.queue.iter().any\x7c position\x7c find` on the key). -/
def containsKey (q : List Waiter) (key : Nat) : Bool :=
  q.any fun w => w.key == key

/-- Replace the waker of the first entry with the given key
(`find(... w.key == key)` followed by `w.waker = cx.waker().clone()`). -/
def replaceFirst : List Waiter → Nat → Nat → List Waiter
  | [], _, _ => []
  | w :: ws, key, wk =>
    if w.key = key then ⟨w.key, wk⟩ :: ws else w :: replaceFirst ws key wk

/-- Remove the first entry with the given key
(`position(... w.key == key)` followed by `self.queue.remove(idx)`). -/
def removeFirst : List Waiter → Nat → List Waiter
  | [], _ => []
  | w :: ws, key => if w.key = key then ws else w :: removeFirst ws key

/-- Translation of `Inner::is_in_waiting_range`. -/
def Inner.is_in_waiting_range (s : Inner) (key : Nat) : Bool :=
  decide (key ≥ s.min_key) ||
    (decide (s.next_key < s.min_key) && decide (key < s.next_key))

/-- Translation of `Inner::insert`: allocate `next_key`, push the waiter at the back. -/
def Inner.insert (s : Inner) (wk : Nat) : Nat × Inner :=
  let key := s.next_key
  (key, { s with
            next_key := wrapAdd1 s.next_key
            queue := s.queue ++ [⟨key, wk⟩] })

/-- Translation of `Inner::update`: replace the waker in place if the key is still
waiting, otherwise decrement `notified_count` and re-insert under a fresh key. -/
def Inner.update (s : Inner) (key wk : Nat) : Nat × Inner :=
  if s.is_in_waiting_range key && containsKey s.queue key then
    (key, { s with queue := replaceFirst s.queue key wk })
  else
    Inner.insert { s with notified_count := s.notified_count - 1 } wk

/-- Translation of `Inner::remove`: unlink the entry if still waiting (returning
`false`), otherwise decrement `notified_count` and return `true`. -/
def Inner.remove (s : Inner) (key : Nat) : Bool × Inner :=
  if s.is_in_waiting_range key && containsKey s.queue key then
    (false, { s with queue := removeFirst s.queue key })
  else
    (true, { s with notified_count := s.notified_count - 1 })

/-- Translation of `Inner::notify_first`: pop the FIFO head, mark it notified,
advance `min_key`, and wake it.  The third component lists the woken wakers. -/
def Inner.notify_first (s : Inner) : Bool × Inner × List Nat :=
  match s.queue with
  | [] => (false, s, [])
  | w :: rest =>
    (true,
     { s with
        queue := rest
        notified_count := s.notified_count + 1
        min_key := wrapAdd1 w.key },
     [w.waker])

/-- Translation of `Inner::notify_all`: wake every queued entry in order,
add their number to `notified_count`, and advance `min_key` to `next_key`. -/
def Inner.notify_all (s : Inner) : Bool × Inner × List Nat :=
  (decide (0 < s.queue.length),
   { s with
      queue := []
      notified_count := s.notified_count + s.queue.length
      min_key := s.next_key },
   s.queue.map Waiter.waker)

/-- Translation of `Inner::cancel`: remove, and if the entry had already been
notified, forward the notification by waking the new FIFO head. -/
def Inner.cancel (s : Inner) (key : Nat) : Bool × Inner × List Nat :=
  let r := s.remove key
  if r.1 then r.2.notify_first else (false, r.2, [])

/-- Translation of `Inner::update_if_pending`: replace the waker in place if the
key is still waiting (returning `true`), else decrement `notified_count`. -/
def Inner.update_if_pending (s : Inner) (key wk : Nat) : Bool × Inner :=
  if s.is_in_waiting_range key && containsKey s.queue key then
    (true, { s with queue := replaceFirst s.queue key wk })
  else
    (false, { s with notified_count := s.notified_count - 1 })

/-- The `Waitlist`: the published atomic flags word together with the
mutex-protected inner state. -/
structure Waitlist where
  flags : Nat
  inner : Inner
deriving DecidableEq, Repr

/-- The flags word recomputed in `Guard::drop`: `WAITING` if the queue is
non-empty, `NOTIFIED` if `notified_count > 0`. -/
def flagsOf (s : Inner) : Nat :=
  (if s.queue = [] then 0 else WAITING) ||| (if 0 < s.notified_count then NOTIFIED else 0)

/-- Release of the critical-section guard: publish the recomputed flags word. -/
def Guard.release (s : Inner) : Waitlist := ⟨flagsOf s, s⟩

/-- Translation of `Waitlist::new` (capacity plays no role in the model). -/
def Waitlist.new : Waitlist := ⟨0, ⟨[], 0, 0, 0⟩⟩

/-- Translation of `Waitlist::notify_one`: fast-path check of the `WAITING`
bit, then `notify_first` under the lock. -/
def Waitlist.notify_one (wl : Waitlist) : Bool × Waitlist × List Nat :=
  if wl.flags &&& WAITING ≠ 0 then
    let r := wl.inner.notify_first
    (r.1, Guard.release r.2.1, r.2.2)
  else
    (false, wl, [])

/-- Translation of `Waitlist::notify_all`. -/
def Waitlist.notify_all (wl : Waitlist) : Bool × Waitlist × List Nat :=
  if wl.flags &&& WAITING ≠ 0 then
    let r := wl.inner.notify_all
    (r.1, Guard.release r.2.1, r.2.2)
  else
    (false, wl, [])

/-- Translation of `Waitlist::notify_any`: skip if the `NOTIFIED` bit is set or
the `WAITING` bit is clear; under the lock, re-check `notified_count`. -/
def Waitlist.notify_any (wl : Waitlist) : Bool × Waitlist × List Nat :=
  if wl.flags &&& NOTIFIED = 0 ∧ wl.flags &&& WAITING ≠ 0 then
    if wl.inner.notified_count = 0 then
      let r := wl.inner.notify_first
      (r.1, Guard.release r.2.1, r.2.2)
    else
      (false, Guard.release wl.inner, [])
  else
    (false, wl, [])

/-- Result of a `WaitHandle` operation: returned boolean, the handle's key
afterwards, the waitlist afterwards, and the wakers woken. -/
structure HRes where
  ret : Bool
  key : Option Nat
  wl : Waitlist
  wakes : List Nat
deriving DecidableEq, Repr

/-- Translation of `WaitHandle::finish`: take the key and `remove` it. -/
def WaitHandle.finish (wl : Waitlist) (key : Option Nat) : HRes :=
  match key with
  | some k =>
    let r := wl.inner.remove k
    ⟨r.1, none, Guard.release r.2, []⟩
  | none => ⟨false, none, wl, []⟩

/-- Translation of `WaitHandle::cancel`: take the key and `cancel` it. -/
def WaitHandle.cancel (wl : Waitlist) (key : Option Nat) : HRes :=
  match key with
  | some k =>
    let r := wl.inner.cancel k
    ⟨r.1, none, Guard.release r.2.1, r.2.2⟩
  | none => ⟨false, none, wl, []⟩

/-- Translation of `WaitHandle::set_context`: `update` if a key is registered,
else `insert`; the handle keeps the returned key.  (The source returns `()`;
the `ret` field is fixed to `true`.) -/
def WaitHandle.set_context (wl : Waitlist) (key : Option Nat) (wk : Nat) : HRes :=
  match key with
  | some k =>
    let r := wl.inner.update k wk
    ⟨true, some r.1, Guard.release r.2, []⟩
  | none =>
    let r := wl.inner.insert wk
    ⟨true, some r.1, Guard.release r.2, []⟩

/-- Translation of `WaitHandle::try_finish`: `update_if_pending`; keep the key
and return `false` if the waker was updated, else clear the key and return
`true`.  An unregistered handle returns `true` without locking. -/
def WaitHandle.try_finish (wl : Waitlist) (key : Option Nat) (wk : Nat) : HRes :=
  match key with
  | some k =>
    let r := wl.inner.update_if_pending k wk
    if r.1 then ⟨false, some k, Guard.release r.2, []⟩
    else ⟨true, none, Guard.release r.2, []⟩
  | none => ⟨true, none, wl, []⟩

/-- Register a list of wakers in order, each through a fresh handle's
`set_context` (hence through `Inner::insert`). -/
def insertAll (wl : Waitlist) (wks : List Nat) : Waitlist :=
  wks.foldl (fun w wk => (WaitHandle.set_context w none wk).wl) wl

/-- Trace of `n` successive `notify_one` calls: for each call, whether it
returned `true` and the wakers it woke. -/
def notifyOneTrace : Waitlist → Nat → List (Bool × List Nat)
  | _, 0 => []
  | wl, n + 1 =>
    let r := wl.notify_one
    (r.1, r.2.2) :: notifyOneTrace r.2.1 n

/-- Flags-word accuracy: the `WAITING` bit is set exactly when the queue is
non-empty, and the `NOTIFIED` bit exactly when `notified_count > 0`. -/
def FlagsOk (wl : Waitlist) : Prop :=
  (wl.flags &&& WAITING ≠ 0 ↔ wl.inner.queue ≠ []) ∧
  (wl.flags &&& NOTIFIED ≠ 0 ↔ 0 < wl.inner.notified_count)

instance (wl : Waitlist) : Decidable (FlagsOk wl) := by
  unfold FlagsOk
  infer_instance

/-! ## The section-8 scenario (claim C5): w1, w2, w3 with wakers 1, 2, 3 -/

/-- Scenario state after registering w1, w2, w3 on a fresh waitlist. -/
def c5_insert : Waitlist :=
  (WaitHandle.set_context
    (WaitHandle.set_context
      (WaitHandle.set_context Waitlist.new none 1).wl none 2).wl none 3).wl

/-- Scenario step: the single `notify_one` call. -/
def c5_notify : Bool × Waitlist × List Nat := c5_insert.notify_one

/-- Scenario step: cancelling w1 (its handle key is `0`). -/
def c5_cancel1 : HRes := WaitHandle.cancel c5_notify.2.1 (some 0)

/-- Scenario step: cancelling w2 (its handle key is `1`). -/
def c5_cancel2 : HRes := WaitHandle.cancel c5_cancel1.wl (some 1)

/-- One engine operation: every public entry point that can take the lock
(and hence release the guard, republishing the flags word). -/
inductive Op where
  | notifyOne : Op
  | notifyAll : Op
  | notifyAny : Op
  | finishOp : Option Nat → Op
  | cancelOp : Option Nat → Op
  | setCtxOp : Option Nat → Nat → Op
  | tryFinishOp : Option Nat → Nat → Op
deriving DecidableEq, Repr

/-- The waitlist state after one engine operation. -/
def applyOp : Op → Waitlist → Waitlist
  | .notifyOne, wl => wl.notify_one.2.1
  | .notifyAll, wl => wl.notify_all.2.1
  | .notifyAny, wl => wl.notify_any.2.1
  | .finishOp k, wl => (WaitHandle.finish wl k).wl
  | .cancelOp k, wl => (WaitHandle.cancel wl k).wl
  | .setCtxOp k wk, wl => (WaitHandle.set_context wl k wk).wl
  | .tryFinishOp k wk, wl => (WaitHandle.try_finish wl k wk).wl

/-- Modelled from the spec: membership of `k` in the half-open range
`[lo, hi)` under wraparound arithmetic modulo `USIZE` — the distance from
`lo` to `k` is smaller than the distance from `lo` to `hi`. -/
def inWrapRange (lo hi k : Nat) : Prop :=
  (k + USIZE - lo) % USIZE < (hi + USIZE - lo) % USIZE

instance (lo hi k : Nat) : Decidable (inWrapRange lo hi k) := by
  unfold inWrapRange
  infer_instance

/-! ## Legal operation sequences and underflow safety (claim C10)

A legal client drives the waitlist only through `WaitHandle`s: each handle
holds at most one registration, `finish`/`cancel` take the key out of the
handle, and only engine-issued keys are ever used.  A world is the waitlist
together with the keys of all live handles. -/

/-- A world: the waitlist plus the key state of every handle created so far. -/
structure World where
  wl : Waitlist
  handles : List (Option Nat)
deriving DecidableEq, Repr

/-- A handle-level operation: the full public API. -/
inductive WOp where
  | newHandle : WOp
  | setCtxW : Nat → Nat → WOp
  | finishW : Nat → WOp
  | cancelW : Nat → WOp
  | tryFinishW : Nat → Nat → WOp
  | notifyOneW : WOp
  | notifyAllW : WOp
  | notifyAnyW : WOp
deriving DecidableEq, Repr

/-- Apply one handle-level operation (operations on a non-existent handle
index are no-ops). -/
def applyW : WOp → World → World
  | .newHandle, w => ⟨w.wl, w.handles ++ [none]⟩
  | .setCtxW i wk, w =>
    match w.handles[i]? with
    | some k =>
      let r := WaitHandle.set_context w.wl k wk
      ⟨r.wl, w.handles.set i r.key⟩
    | none => w
  | .finishW i, w =>
    match w.handles[i]? with
    | some k =>
      let r := WaitHandle.finish w.wl k
      ⟨r.wl, w.handles.set i r.key⟩
    | none => w
  | .cancelW i, w =>
    match w.handles[i]? with
    | some k =>
      let r := WaitHandle.cancel w.wl k
      ⟨r.wl, w.handles.set i r.key⟩
    | none => w
  | .tryFinishW i wk, w =>
    match w.handles[i]? with
    | some k =>
      let r := WaitHandle.try_finish w.wl k wk
      ⟨r.wl, w.handles.set i r.key⟩
    | none => w
  | .notifyOneW, w => ⟨w.wl.notify_one.2.1, w.handles⟩
  | .notifyAllW, w => ⟨w.wl.notify_all.2.1, w.handles⟩
  | .notifyAnyW, w => ⟨w.wl.notify_any.2.1, w.handles⟩

/-- Run a sequence of handle-level operations. -/
def runW : List WOp → World → World
  | [], w => w
  | op :: ops, w => runW ops (applyW op w)

/-- The initial world: a fresh waitlist and no handles. -/
def World.init : World := ⟨Waitlist.new, []⟩

/-- The keys held by live (registered) handles. -/
def liveKeys (hs : List (Option Nat)) : List Nat := hs.filterMap id

/-- The keys currently in the queue, in FIFO order. -/
def queueKeys (s : Inner) : List Nat := s.queue.map Waiter.key

/-- Decrement safety: whenever a live handle's key is not found among the
waiting entries (the situation in which `remove`, `update` and
`update_if_pending` all decrement `notified_count` without a guard),
`notified_count` is strictly positive, so the decrement cannot underflow. -/
def DecSafe (w : World) : Prop :=
  ∀ k, some k ∈ w.handles →
    ¬ (w.wl.inner.is_in_waiting_range k = true ∧
       containsKey w.wl.inner.queue k = true) →
    0 < w.wl.inner.notified_count

/-- The inductive invariant tying the inner state to the live handle keys. -/
structure InvI (s : Inner) (live : List Nat) : Prop where
  nlt : s.next_key < USIZE
  mle : s.min_key ≤ s.next_key
  qsorted : (queueKeys s).Pairwise (· < ·)
  qlo : ∀ k ∈ queueKeys s, s.min_key ≤ k
  qhi : ∀ k ∈ queueKeys s, k < s.next_key
  livelt : ∀ k ∈ live, k < s.next_key
  livend : live.Nodup
  qlive : ∀ k ∈ queueKeys s, k ∈ live
  count : live.length = s.notified_count + s.queue.length

/-- The world invariant behind claim C10. -/
def WorldInv (w : World) : Prop := InvI w.wl.inner (liveKeys w.handles)

/-- One allocate-and-finish cycle, advancing `next_key` by one: a fresh handle
(index `i + 1`), registered and immediately finished. -/
def cycleOps (i : Nat) : List WOp :=
  [WOp.newHandle, WOp.setCtxW (i + 1) 0, WOp.finishW (i + 1)]

/-- `n` allocate-and-finish cycles. -/
def cycles : Nat → List WOp
  | 0 => []
  | n + 1 => cycles n ++ cycleOps n

/-- The legal operation sequence refuting C10: register handle `0` (key `0`),
spin the key counter all the way around with allocate-and-finish cycles,
register handle `USIZE` (which aliases key `0`), notify once, and finish the
aliased handle.  Handle `0` is then live with `notified_count = 0`. -/
def badSeq : List WOp :=
  [WOp.newHandle, WOp.setCtxW 0 0] ++ cycles (USIZE - 1) ++
  [WOp.newHandle, WOp.setCtxW USIZE 0, WOp.notifyOneW, WOp.finishW USIZE]


example : (Waitlist.new.notify_one).1 = false := by decide

example :
    (insertAll Waitlist.new [10, 11]).inner.queue = [⟨0, 10⟩, ⟨1, 11⟩] := by decide

example : notifyOneTrace (insertAll Waitlist.new [10, 11]) 2 =
    [(true, [10]), (true, [11])] := by decide

/-! ## Flags-word lemmas -/

theorem release_flagsOk (s : Inner) : FlagsOk (Guard.release s) := by
  by_cases hq : s.queue = [] <;> by_cases hn : 0 < s.notified_count <;>
    constructor <;>
      simp [Guard.release, flagsOf, FlagsOk, WAITING, NOTIFIED, hq, hn] <;>
        decide

theorem new_flagsOk : FlagsOk Waitlist.new := by
  constructor <;> simp [Waitlist.new, WAITING, NOTIFIED]

/-! ## Characterisation of `notify_one` on flag-accurate states -/

theorem notify_one_nil (wl : Waitlist) (hok : FlagsOk wl)
    (h : wl.inner.queue = []) : wl.notify_one = (false, wl, []) := by
  have : ¬ wl.flags &&& WAITING ≠ 0 := by
    rw [hok.1, h]; simp
  simp [Waitlist.notify_one, this]

theorem notify_one_cons (wl : Waitlist) (hok : FlagsOk wl) (w : Waiter)
    (rest : List Waiter) (h : wl.inner.queue = w :: rest) :
    wl.notify_one =
      (true,
       Guard.release
         { wl.inner with
            queue := rest
            notified_count := wl.inner.notified_count + 1
            min_key := wrapAdd1 w.key },
       [w.waker]) := by
  have hw : wl.flags &&& WAITING ≠ 0 := by
    rw [hok.1, h]; simp
  simp [Waitlist.notify_one, hw, Inner.notify_first, h]

theorem notifyOneTrace_spec (q : List Waiter) :
    ∀ wl : Waitlist, FlagsOk wl → wl.inner.queue = q →
      notifyOneTrace wl q.length = q.map fun w => (true, [w.waker]) := by
  induction q with
  | nil => intro wl _ _; simp [notifyOneTrace]
  | cons w rest ih =>
    intro wl hok h
    show notifyOneTrace wl (rest.length + 1) = _
    unfold notifyOneTrace
    rw [notify_one_cons wl hok w rest h]
    have := ih (Guard.release
        { wl.inner with
            queue := rest
            notified_count := wl.inner.notified_count + 1
            min_key := wrapAdd1 w.key })
      (release_flagsOk _) rfl
    simpa using this

/-! ## Effect of `insertAll` -/

theorem insertAll_queue_waker (wks : List Nat) :
    ∀ wl : Waitlist,
      (insertAll wl wks).inner.queue.map Waiter.waker =
        wl.inner.queue.map Waiter.waker ++ wks := by
  induction wks with
  | nil => intro wl; simp [insertAll]
  | cons wk t ih =>
    intro wl
    show (insertAll _ t).inner.queue.map Waiter.waker = _
    rw [ih]
    simp [WaitHandle.set_context, Inner.insert, Guard.release]

theorem insertAll_flagsOk (wks : List Nat) :
    ∀ wl : Waitlist, FlagsOk wl → FlagsOk (insertAll wl wks) := by
  induction wks with
  | nil => intro wl hok; exact hok
  | cons wk t ih =>
    intro wl _
    exact ih _ (release_flagsOk _)

/-- C1: FIFO fairness.  Registering wakers `w0 .. wN-1` in order, each through a
fresh handle's `set_context` (hence `Inner::insert`), and then calling
`notify_one` `N` times, each call returns `true` and wakes exactly one waker,
in exactly registration order: the `i`-th call wakes `w_i` and no other. -/
theorem C1_fifo_fairness (wks : List Nat) :
    notifyOneTrace (insertAll Waitlist.new wks) wks.length =
      wks.map fun wk => (true, [wk]) := by
  have hok := insertAll_flagsOk wks Waitlist.new new_flagsOk
  have hq := insertAll_queue_waker wks Waitlist.new
  have hq' : (insertAll Waitlist.new wks).inner.queue.map Waiter.waker = wks := by
    simpa [Waitlist.new] using hq
  have hlen : wks.length = (insertAll Waitlist.new wks).inner.queue.length := by
    have := congrArg List.length hq'
    simpa using this.symm
  rw [hlen, notifyOneTrace_spec _ _ hok rfl]
  have : ((insertAll Waitlist.new wks).inner.queue.map fun w => ((true : Bool), [w.waker])) =
      ((insertAll Waitlist.new wks).inner.queue.map Waiter.waker).map fun wk =>
        ((true : Bool), [wk]) := by
    rw [List.map_map]; rfl
  rw [this, hq']

/-- C2: cancellation forwarding.  Cancelling a handle whose waiter has already
been notified (its key is classified out of the waiting range, and at least one
notification is unconsumed) removes the entry; if at least one other waiter is
still waiting, it wakes exactly the new FIFO head, returns `true`, and leaves
`notified_count` unchanged.  Cancelling a handle whose waiter is still waiting
removes it from the queue, wakes no one, and returns `false`. -/
theorem C2_cancel_forwarding (wl : Waitlist) (k : Nat) :
    (wl.inner.is_in_waiting_range k = false → 0 < wl.inner.notified_count →
      wl.inner.queue ≠ [] →
      (WaitHandle.cancel wl (some k)).ret = true ∧
      (WaitHandle.cancel wl (some k)).wakes = (wl.inner.queue.map Waiter.waker).take 1 ∧
      (WaitHandle.cancel wl (some k)).wl.inner.queue = wl.inner.queue.tail ∧
      (WaitHandle.cancel wl (some k)).wl.inner.notified_count = wl.inner.notified_count ∧
      (WaitHandle.cancel wl (some k)).key = none) ∧
    (wl.inner.is_in_waiting_range k = true → containsKey wl.inner.queue k = true →
      (WaitHandle.cancel wl (some k)).ret = false ∧
      (WaitHandle.cancel wl (some k)).wakes = [] ∧
      (WaitHandle.cancel wl (some k)).wl.inner.queue = removeFirst wl.inner.queue k ∧
      (WaitHandle.cancel wl (some k)).wl.inner.notified_count = wl.inner.notified_count) := by
  constructor
  · intro hstale hnc hq
    obtain ⟨w, rest, hwr⟩ : ∃ w rest, wl.inner.queue = w :: rest := by
      cases h : wl.inner.queue with
      | nil => exact absurd h hq
      | cons a t => exact ⟨a, t, rfl⟩
    refine ⟨?_, ?_, ?_, ?_, ?_⟩ <;>
      simp [WaitHandle.cancel, Inner.cancel, Inner.remove, hstale,
        Inner.notify_first, hwr, Guard.release] <;> omega
  · intro hin hmem
    refine ⟨?_, ?_, ?_, ?_⟩ <;>
      simp [WaitHandle.cancel, Inner.cancel, Inner.remove, hin, hmem, Guard.release]

/-- Witness for C2 at the concrete state of the spec's two-waiter example:
queue `[⟨1, 12⟩]` after waiter `0` was popped by a notify. -/
theorem C2_witness :
    (WaitHandle.cancel ⟨6, ⟨[⟨1, 12⟩], 1, 1, 2⟩⟩ (some 0)).ret = true ∧
    (WaitHandle.cancel ⟨6, ⟨[⟨1, 12⟩], 1, 1, 2⟩⟩ (some 0)).wakes = [12] :=
  have h := (C2_cancel_forwarding ⟨6, ⟨[⟨1, 12⟩], 1, 1, 2⟩⟩ 0).1
    (by decide) (by decide) (by decide)
  ⟨h.1, h.2.1⟩

/-- C3: `notify_all` wakes every currently-waiting entry exactly once each, in
FIFO order (the wake list is exactly the queue's wakers in order), empties the
queue marking them notified (`notified_count` grows by the number woken), and
returns `true` iff at least one waiter was waiting. -/
theorem C3_notify_all (wl : Waitlist) (hok : FlagsOk wl) :
    (wl.notify_all).2.2 = wl.inner.queue.map Waiter.waker ∧
    (wl.notify_all).2.1.inner.queue = [] ∧
    (wl.notify_all).2.1.inner.notified_count
      = wl.inner.notified_count + wl.inner.queue.length ∧
    ((wl.notify_all).1 = true ↔ wl.inner.queue ≠ []) := by
  by_cases h : wl.inner.queue = []
  · have hw : ¬ wl.flags &&& WAITING ≠ 0 := by rw [hok.1]; simp [h]
    simp [Waitlist.notify_all, hw, h]
  · have hw : wl.flags &&& WAITING ≠ 0 := hok.1.mpr h
    have hl : 0 < wl.inner.queue.length := List.length_pos.mpr h
    simp [Waitlist.notify_all, hw, Inner.notify_all, Guard.release, h, hl]

/-- Witness for C3 on a two-waiter state. -/
theorem C3_witness :
    ((⟨2, ⟨[⟨0, 5⟩, ⟨1, 6⟩], 0, 0, 2⟩⟩ : Waitlist).notify_all).2.2 = [5, 6] :=
  (C3_notify_all ⟨2, ⟨[⟨0, 5⟩, ⟨1, 6⟩], 0, 0, 2⟩⟩ (by decide)).1

/-- C4: `notify_any` is idempotent toward a single unconsumed notification.
From a flag-accurate state with at least one waiter and no unconsumed
notification, the first call wakes exactly the FIFO head and returns `true`;
an immediately following second call wakes no one, returns `false`, and leaves
the state unchanged. -/
theorem C4_notify_any (wl : Waitlist) (hok : FlagsOk wl)
    (hq : wl.inner.queue ≠ []) (hn : wl.inner.notified_count = 0) :
    (wl.notify_any).1 = true ∧
    (wl.notify_any).2.2 = (wl.inner.queue.map Waiter.waker).take 1 ∧
    ((wl.notify_any).2.1.notify_any).1 = false ∧
    ((wl.notify_any).2.1.notify_any).2.2 = [] ∧
    ((wl.notify_any).2.1.notify_any).2.1 = (wl.notify_any).2.1 := by
  obtain ⟨w, rest, hwr⟩ : ∃ w rest, wl.inner.queue = w :: rest := by
    cases h : wl.inner.queue with
    | nil => exact absurd h hq
    | cons a t => exact ⟨a, t, rfl⟩
  have hn4 : wl.flags &&& NOTIFIED = 0 := by
    by_contra hc
    have := hok.2.mp hc
    omega
  have hw2 : wl.flags &&& WAITING ≠ 0 := hok.1.mpr hq
  have h1 : wl.notify_any =
      (true,
       Guard.release
         { wl.inner with
            queue := rest
            notified_count := wl.inner.notified_count + 1
            min_key := wrapAdd1 w.key },
       [w.waker]) := by
    simp [Waitlist.notify_any, hn4, hw2, hn, Inner.notify_first, hwr]
  have h2 : ∀ s : Inner, 0 < s.notified_count →
      (Guard.release s).notify_any = (false, Guard.release s, []) := by
    intro s hs
    have hnb : ¬ (Guard.release s).flags &&& NOTIFIED = 0 := by
      have := (release_flagsOk s).2.mpr hs
      exact this
    simp [Waitlist.notify_any, hnb]
  rw [h1]
  refine ⟨rfl, by simp [hwr], ?_, ?_, ?_⟩ <;> rw [h2 _ (by simp)]

/-- Witness for C4 on a two-waiter state with no pending notification. -/
theorem C4_witness :
    ((⟨2, ⟨[⟨0, 7⟩, ⟨1, 8⟩], 0, 0, 2⟩⟩ : Waitlist).notify_any).1 = true :=
  (C4_notify_any ⟨2, ⟨[⟨0, 7⟩, ⟨1, 8⟩], 0, 0, 2⟩⟩ (by decide) (by decide) rfl).1

/-- Counterexample to C5: in the scenario, `notify_one` wakes w1, but
cancelling w1 is not a no-op on forwarding — it wakes w2 (waker `2`), contrary
to the claim that no other waiter is woken by that cancel.  Consequently w2 is
no longer waiting when it is cancelled. -/
theorem C5_counterexample :
    c5_notify.2.2 = [1] ∧ c5_cancel1.wakes = [2] ∧ c5_cancel1.ret = true := by
  decide

/-- C5 (amended): in the scenario, `notify_one` fires w1 (count(w1) = 1);
cancelling w1, whose notification was never consumed, forwards it and wakes w2
exactly once, returning `true`; cancelling w2, which is now notified rather
than waiting, forwards again and wakes w3 exactly once (count(w3) = 1).  In
total each waker fires exactly once. -/
theorem C5_scenario_amended :
    c5_notify.2.2 = [1] ∧
    c5_cancel1.ret = true ∧ c5_cancel1.wakes = [2] ∧
    c5_cancel2.ret = true ∧ c5_cancel2.wakes = [3] ∧
    c5_notify.2.2 ++ c5_cancel1.wakes ++ c5_cancel2.wakes = [1, 2, 3] := by
  decide

/-! ## Re-registration (claim C6) -/

theorem replaceFirst_append_fresh (q : List Waiter) (k a b : Nat)
    (h : ∀ w ∈ q, w.key ≠ k) :
    replaceFirst (q ++ [⟨k, a⟩]) k b = q ++ [⟨k, b⟩] := by
  induction q with
  | nil => simp [replaceFirst]
  | cons w t ih =>
    have hw : w.key ≠ k := h w (by simp)
    simp only [List.cons_append, replaceFirst, if_neg hw]
    exact congrArg (w :: ·) (ih fun x hx => h x (by simp [hx]))

theorem replaceFirst_map_key (q : List Waiter) (k wk : Nat) :
    (replaceFirst q k wk).map Waiter.key = q.map Waiter.key := by
  induction q with
  | nil => rfl
  | cons w t ih =>
    by_cases hw : w.key = k <;> simp [replaceFirst, hw, ih]

/-- C6: re-registration semantics of `set_context`/`update`.  First part: if
the handle's key is still waiting, the waker is replaced in place and the
queue's keys (hence every entry's position) are unchanged.  Second part: if the
key is no longer waiting (it was notified), the entry is re-appended at the
FIFO tail under the fresh key `next_key` and `notified_count` is decremented.
Third part: calling `set_context` twice on one fresh handle adds exactly one
queue entry (holding the second waker), so the subsequent `notify_one` calls
each wake exactly one waker and wake that handle exactly once. -/
theorem C6_update (s : Inner) (k wk : Nat) (wl : Waitlist) (a b : Nat) :
    (s.is_in_waiting_range k = true → containsKey s.queue k = true →
      s.update k wk = (k, { s with queue := replaceFirst s.queue k wk }) ∧
      (s.update k wk).2.queue.map Waiter.key = s.queue.map Waiter.key) ∧
    (s.is_in_waiting_range k = false ∨ containsKey s.queue k = false →
      s.update k wk =
        (s.next_key,
         { queue := s.queue ++ [⟨s.next_key, wk⟩]
           notified_count := s.notified_count - 1
           min_key := s.min_key
           next_key := wrapAdd1 s.next_key })) ∧
    (wl.inner.min_key ≤ wl.inner.next_key →
     wl.inner.next_key + 1 < USIZE →
     (∀ w ∈ wl.inner.queue, w.key < wl.inner.next_key) →
      (WaitHandle.set_context
          (WaitHandle.set_context wl none a).wl
          (WaitHandle.set_context wl none a).key b).wl.inner.queue =
        wl.inner.queue ++ [⟨wl.inner.next_key, b⟩] ∧
      notifyOneTrace
          (WaitHandle.set_context
            (WaitHandle.set_context wl none a).wl
            (WaitHandle.set_context wl none a).key b).wl
          (wl.inner.queue.length + 1) =
        (wl.inner.queue.map Waiter.waker ++ [b]).map fun x => (true, [x])) := by
  refine ⟨?_, ?_, ?_⟩
  · intro hin hmem
    constructor
    · simp [Inner.update, hin, hmem]
    · simp [Inner.update, hin, hmem, replaceFirst_map_key]
  · intro h
    rcases h with h | h <;> simp [Inner.update, h, Inner.insert]
  · intro hmn hnw hqk
    have hkey : (WaitHandle.set_context wl none a).key = some wl.inner.next_key := by
      simp [WaitHandle.set_context, Inner.insert]
    have hwrap : wrapAdd1 wl.inner.next_key = wl.inner.next_key + 1 := by
      unfold wrapAdd1
      exact Nat.mod_eq_of_lt hnw
    have hin : ((WaitHandle.set_context wl none a).wl.inner.is_in_waiting_range
        wl.inner.next_key) = true := by
      simp [WaitHandle.set_context, Inner.insert, Guard.release,
        Inner.is_in_waiting_range, hmn]
    have hmem : containsKey (WaitHandle.set_context wl none a).wl.inner.queue
        wl.inner.next_key = true := by
      simp [WaitHandle.set_context, Inner.insert, Guard.release, containsKey]
    have hq :
        (WaitHandle.set_context
          (WaitHandle.set_context wl none a).wl
          (WaitHandle.set_context wl none a).key b).wl.inner.queue =
        wl.inner.queue ++ [⟨wl.inner.next_key, b⟩] := by
      rw [hkey]
      simp only [WaitHandle.set_context, Inner.update, Inner.insert,
        Guard.release] at hin hmem ⊢
      rw [hin, hmem]
      simp only [Bool.and_self, if_pos]
      exact replaceFirst_append_fresh wl.inner.queue wl.inner.next_key a b
        fun w hw => Nat.ne_of_lt (hqk w hw)
    refine ⟨hq, ?_⟩
    have hlen : wl.inner.queue.length + 1 =
        (WaitHandle.set_context
          (WaitHandle.set_context wl none a).wl
          (WaitHandle.set_context wl none a).key b).wl.inner.queue.length := by
      rw [hq]; simp
    have hflags : FlagsOk
        (WaitHandle.set_context
          (WaitHandle.set_context wl none a).wl
          (WaitHandle.set_context wl none a).key b).wl := by
      rw [hkey]
      simp only [WaitHandle.set_context]
      exact release_flagsOk _
    rw [hlen, notifyOneTrace_spec _ _ hflags rfl, hq]
    simp [List.map_append]

/-- Witness for C6: the in-place branch at a waiting key, the re-insert branch
at a stale key, and the double-`set_context` scenario on a fresh waitlist. -/
theorem C6_witness :
    (Inner.update ⟨[⟨0, 5⟩], 0, 0, 1⟩ 0 9).2.queue = [⟨0, 9⟩] ∧
    (Inner.update ⟨[], 1, 1, 1⟩ 0 9).2.queue = [⟨1, 9⟩] ∧
    (WaitHandle.set_context
      (WaitHandle.set_context Waitlist.new none 4).wl
      (WaitHandle.set_context Waitlist.new none 4).key 5).wl.inner.queue =
        [⟨0, 5⟩] := by
  refine ⟨?_, ?_, ?_⟩
  · have h := ((C6_update ⟨[⟨0, 5⟩], 0, 0, 1⟩ 0 9 Waitlist.new 0 0).1
      (by decide) (by decide)).1
    rw [h]
    decide
  · have h := (C6_update ⟨[], 1, 1, 1⟩ 0 9 Waitlist.new 0 0).2.1 (Or.inl (by decide))
    rw [h]
    decide
  · have h := ((C6_update ⟨[], 0, 0, 0⟩ 0 0 Waitlist.new 4 5).2.2
      (by decide) (by decide) (by decide)).1
    rw [h]
    decide

/-! ## `try_finish` (claim C7) -/

/-- C7: `try_finish` on a registered handle.  If the waiter is still waiting,
the new waker is installed in place, the handle stays registered, and `false`
is returned; if the waiter had already been notified, the notification is
consumed (`notified_count` decremented, key cleared) and `true` is returned. -/
theorem C7_try_finish (wl : Waitlist) (k wk : Nat) :
    (wl.inner.is_in_waiting_range k = true → containsKey wl.inner.queue k = true →
      (WaitHandle.try_finish wl (some k) wk).ret = false ∧
      (WaitHandle.try_finish wl (some k) wk).key = some k ∧
      (WaitHandle.try_finish wl (some k) wk).wl.inner.queue
        = replaceFirst wl.inner.queue k wk ∧
      (WaitHandle.try_finish wl (some k) wk).wl.inner.notified_count
        = wl.inner.notified_count) ∧
    (wl.inner.is_in_waiting_range k = false ∨ containsKey wl.inner.queue k = false →
      (WaitHandle.try_finish wl (some k) wk).ret = true ∧
      (WaitHandle.try_finish wl (some k) wk).key = none ∧
      (WaitHandle.try_finish wl (some k) wk).wl.inner.notified_count
        = wl.inner.notified_count - 1 ∧
      (WaitHandle.try_finish wl (some k) wk).wl.inner.queue = wl.inner.queue) := by
  constructor
  · intro hin hmem
    refine ⟨?_, ?_, ?_, ?_⟩ <;>
      simp [WaitHandle.try_finish, Inner.update_if_pending, hin, hmem, Guard.release]
  · intro h
    rcases h with h | h <;>
      · refine ⟨?_, ?_, ?_, ?_⟩ <;>
          simp [WaitHandle.try_finish, Inner.update_if_pending, h, Guard.release]

/-! ## Flags-word invariant (claim C8) -/

/-- C8: flags-word invariant.  The fresh waitlist is flag-accurate, and every
engine operation preserves flag accuracy: at each guard release the `WAITING`
bit is set iff the queue is non-empty and the `NOTIFIED` bit iff
`notified_count > 0`; in particular the flags never under-approximate. -/
theorem C8_flags_invariant :
    FlagsOk Waitlist.new ∧
    ∀ (op : Op) (wl : Waitlist), FlagsOk wl → FlagsOk (applyOp op wl) := by
  refine ⟨new_flagsOk, ?_⟩
  intro op wl h
  cases op with
  | notifyOne =>
    by_cases hc : wl.flags &&& WAITING ≠ 0 <;>
      simp [applyOp, Waitlist.notify_one, hc, release_flagsOk, h]
  | notifyAll =>
    by_cases hc : wl.flags &&& WAITING ≠ 0 <;>
      simp [applyOp, Waitlist.notify_all, hc, release_flagsOk, h]
  | notifyAny =>
    by_cases hc : wl.flags &&& NOTIFIED = 0 ∧ wl.flags &&& WAITING ≠ 0
    · by_cases hn : wl.inner.notified_count = 0 <;>
        simp [applyOp, Waitlist.notify_any, hc, hn, release_flagsOk]
    · simp [applyOp, Waitlist.notify_any, hc, h]
  | finishOp k =>
    cases k <;> simp [applyOp, WaitHandle.finish, release_flagsOk, h]
  | cancelOp k =>
    cases k <;> simp [applyOp, WaitHandle.cancel, release_flagsOk, h]
  | setCtxOp k wk =>
    cases k <;> simp [applyOp, WaitHandle.set_context, release_flagsOk, h]
  | tryFinishOp k wk =>
    cases k with
    | none => simpa [applyOp, WaitHandle.try_finish] using h
    | some k =>
      by_cases hc : (wl.inner.update_if_pending k wk).1 <;>
        simp [applyOp, WaitHandle.try_finish, hc, release_flagsOk]

/-- Witness for C8 after a `notify_one` on the fresh waitlist. -/
theorem C8_witness : FlagsOk (applyOp Op.notifyOne Waitlist.new) :=
  C8_flags_invariant.2 Op.notifyOne Waitlist.new C8_flags_invariant.1

/-! ## Stale-key classification (claim C9) -/

/-- Counterexample to C9: on the fresh inner state (`min_key = next_key = 0`)
the wraparound range `[0, 0)` is empty, so key `0` falls outside it, yet
`is_in_waiting_range` classifies it as in range (not stale).  The
classification is therefore not exact. -/
theorem C9_counterexample :
    Inner.is_in_waiting_range ⟨[], 0, 0, 0⟩ 0 = true ∧ ¬ inWrapRange 0 0 0 := by
  constructor
  · decide
  · unfold inWrapRange USIZE
    decide

/-- C9 (amended): the stale classification is sound but not exact.  For every
key and state (all below `USIZE`), if `is_in_waiting_range` classifies the key
as stale (returns `false`), the key does fall outside the half-open range
`[min_key, next_key)` under wraparound arithmetic.  The converse direction of
the claim is false (see the counterexample): keys outside the range that are
`≥ min_key` while no wraparound is pending are still classified as in range. -/
theorem C9_stale_sound (s : Inner) (k : Nat) (hk : k < USIZE)
    (hm : s.min_key < USIZE) (hn : s.next_key < USIZE)
    (hstale : s.is_in_waiting_range k = false) :
    ¬ inWrapRange s.min_key s.next_key k := by
  unfold Inner.is_in_waiting_range at hstale
  unfold inWrapRange USIZE
  unfold USIZE at hk hm hn
  simp only [Bool.or_eq_false_iff, Bool.and_eq_false_iff, decide_eq_false_iff_not,
    not_le, not_lt] at hstale
  obtain ⟨h1, h2⟩ := hstale
  rcases h2 with h2 | h2 <;> omega

/-- Witness for C9 at a non-wrapped state: key `2` with range `[5, 7)`. -/
theorem C9_witness : ¬ inWrapRange 5 7 2 :=
  C9_stale_sound ⟨[], 0, 5, 7⟩ 2 (by decide) (by decide) (by decide) (by decide)

/-- Witness for C7: both branches at concrete states. -/
theorem C7_witness :
    (WaitHandle.try_finish ⟨2, ⟨[⟨0, 5⟩], 0, 0, 1⟩⟩ (some 0) 9).ret = false ∧
    (WaitHandle.try_finish ⟨4, ⟨[], 1, 1, 1⟩⟩ (some 0) 9).ret = true :=
  ⟨((C7_try_finish ⟨2, ⟨[⟨0, 5⟩], 0, 0, 1⟩⟩ 0 9).1 (by decide) (by decide)).1,
   ((C7_try_finish ⟨4, ⟨[], 1, 1, 1⟩⟩ 0 9).2 (Or.inl (by decide))).1⟩

/-! ### List helpers for the invariant proofs -/

theorem containsKey_iff (q : List Waiter) (k : Nat) :
    containsKey q k = true ↔ k ∈ q.map Waiter.key := by
  unfold containsKey
  rw [List.any_eq_true]
  constructor
  · rintro ⟨w, hw, hk⟩
    exact List.mem_map.mpr ⟨w, hw, by simpa using hk⟩
  · intro h
    obtain ⟨w, hw, hk⟩ := List.mem_map.mp h
    exact ⟨w, hw, by simp [hk]⟩

theorem removeFirst_map_key (q : List Waiter) (k : Nat) :
    (removeFirst q k).map Waiter.key = (q.map Waiter.key).erase k := by
  induction q with
  | nil => rfl
  | cons w t ih =>
    by_cases hw : w.key = k
    · simp [removeFirst, hw, List.erase_cons_head]
    · simp [removeFirst, hw, List.erase_cons_tail, ih,
        (by simpa using hw : ¬ w.key == k)]

theorem removeFirst_sublist (q : List Waiter) (k : Nat) :
    (removeFirst q k).Sublist q := by
  induction q with
  | nil => exact List.Sublist.refl []
  | cons w t ih =>
    by_cases hw : w.key = k
    · simp only [removeFirst, if_pos hw]
      exact (List.sublist_cons_self w t)
    · simp only [removeFirst, if_neg hw]
      exact ih.cons₂ w

theorem set_decomp {α : Type} (l : List α) (i : Nat) (a v : α) (h : l[i]? = some a) :
    l = l.take i ++ a :: l.drop (i + 1) ∧
    l.set i v = l.take i ++ v :: l.drop (i + 1) := by
  induction l generalizing i with
  | nil => simp at h
  | cons x t ih =>
    cases i with
    | zero =>
      simp only [List.getElem?_cons_zero, Option.some.injEq] at h
      subst h
      simp
    | succ j =>
      simp only [List.getElem?_cons_succ] at h
      obtain ⟨h1, h2⟩ := ih j h
      constructor
      · simp only [List.take_succ_cons, List.drop_succ_cons, List.cons_append]
        exact congrArg (x :: ·) h1
      · simp only [List.set_cons_succ, List.take_succ_cons, List.drop_succ_cons,
          List.cons_append]
        exact congrArg (x :: ·) h2

theorem liveKeys_append_none (hs : List (Option Nat)) :
    liveKeys (hs ++ [none]) = liveKeys hs := by
  simp [liveKeys]

theorem nodup_subset_length {l₁ l₂ : List Nat} (d : l₁.Nodup) (h : l₁ ⊆ l₂) :
    l₁.length ≤ l₂.length :=
  (List.subperm_of_subset d h).length_le

theorem pairwise_lt_nodup {l : List Nat} (h : l.Pairwise (· < ·)) : l.Nodup :=
  h.imp ne_of_lt

/-! ### Invariant preservation at the `Inner` level -/

theorem InvI.queue_sub {s : Inner} {live : List Nat} (h : InvI s live)
    {A B : List Nat} {k : Nat} (hlive : live = A ++ k :: B)
    (hk : k ∉ queueKeys s) : queueKeys s ⊆ A ++ B := by
  intro m hm
  have hml := h.qlive m hm
  rw [hlive] at hml
  rcases List.mem_append.mp hml with h1 | h1
  · exact List.mem_append.mpr (Or.inl h1)
  · rcases List.mem_cons.mp h1 with h2 | h2
    · exact absurd (h2 ▸ hm) hk
    · exact List.mem_append.mpr (Or.inr h2)

theorem InvI.nc_pos {s : Inner} {live : List Nat} (h : InvI s live)
    {A B : List Nat} {k : Nat} (hlive : live = A ++ k :: B)
    (hk : k ∉ queueKeys s) : 0 < s.notified_count := by
  have hnd : (queueKeys s).Nodup := pairwise_lt_nodup h.qsorted
  have hlen := nodup_subset_length hnd (h.queue_sub hlive hk)
  have hc := h.count
  rw [hlive] at hc
  have hql : (queueKeys s).length = s.queue.length := by simp [queueKeys]
  simp only [List.length_append, List.length_cons] at hc hlen
  omega

theorem InvI.consume {s : Inner} {live : List Nat} (h : InvI s live)
    {A B : List Nat} {k : Nat} (hlive : live = A ++ k :: B)
    (hk : k ∉ queueKeys s) :
    InvI { s with notified_count := s.notified_count - 1 } (A ++ B) := by
  have hnc := h.nc_pos hlive hk
  have hsub : A ++ B ⊆ live := by
    rw [hlive]
    intro m hm
    rcases List.mem_append.mp hm with h1 | h1
    · exact List.mem_append.mpr (Or.inl h1)
    · exact List.mem_append.mpr (Or.inr (List.mem_cons_of_mem k h1))
  have hsl : (A ++ B).Sublist (A ++ k :: B) :=
    (List.sublist_cons_self k B).append_left A
  refine ⟨h.nlt, h.mle, h.qsorted, h.qlo, h.qhi, ?_, ?_, ?_, ?_⟩
  · intro m hm
    exact h.livelt m (hsub hm)
  · exact (hlive ▸ h.livend).sublist hsl
  · exact fun m hm => h.queue_sub hlive hk hm
  · have hc := h.count
    rw [hlive] at hc
    simp only [List.length_append, List.length_cons] at hc ⊢
    omega

theorem InvI.insert_fresh {s : Inner} {live : List Nat} (h : InvI s live)
    (hnw : s.next_key + 1 < USIZE) {A B : List Nat} (hlive : live = A ++ B)
    (wk : Nat) :
    InvI (s.insert wk).2 (A ++ s.next_key :: B) := by
  have hw : wrapAdd1 s.next_key = s.next_key + 1 := Nat.mod_eq_of_lt hnw
  have hqk : queueKeys (s.insert wk).2 = queueKeys s ++ [s.next_key] := by
    simp [Inner.insert, queueKeys]
  have hsub : A ++ B ⊆ live := by rw [hlive]; exact fun m hm => hm
  refine ⟨?_, ?_, ?_, ?_, ?_, ?_, ?_, ?_, ?_⟩
  · show wrapAdd1 s.next_key < USIZE
    omega
  · show s.min_key ≤ wrapAdd1 s.next_key
    have := h.mle
    omega
  · rw [hqk]
    rw [List.pairwise_append]
    refine ⟨h.qsorted, List.pairwise_singleton _ _, ?_⟩
    intro a ha b hb
    rw [List.mem_singleton] at hb
    exact hb ▸ h.qhi a ha
  · rw [hqk]
    intro m hm
    rcases List.mem_append.mp hm with h1 | h1
    · exact h.qlo m h1
    · rw [List.mem_singleton] at h1
      exact h1 ▸ h.mle
  · rw [hqk]
    show ∀ m ∈ queueKeys s ++ [s.next_key], m < wrapAdd1 s.next_key
    intro m hm
    rcases List.mem_append.mp hm with h1 | h1
    · have := h.qhi m h1
      omega
    · rw [List.mem_singleton] at h1
      omega
  · show ∀ m ∈ A ++ s.next_key :: B, m < wrapAdd1 s.next_key
    intro m hm
    rcases List.mem_append.mp hm with h1 | h1
    · have := h.livelt m (hsub (List.mem_append.mpr (Or.inl h1)))
      omega
    · rcases List.mem_cons.mp h1 with h2 | h2
      · omega
      · have := h.livelt m (hsub (List.mem_append.mpr (Or.inr h2)))
        omega
  · rw [List.nodup_middle]
    refine List.nodup_cons.mpr ⟨?_, hlive ▸ h.livend⟩
    intro hmem
    exact absurd (h.livelt s.next_key (hsub hmem)) (lt_irrefl _)
  · rw [hqk]
    intro m hm
    rcases List.mem_append.mp hm with h1 | h1
    · have := h.qlive m h1
      rw [hlive] at this
      rcases List.mem_append.mp this with h2 | h2
      · exact List.mem_append.mpr (Or.inl h2)
      · exact List.mem_append.mpr (Or.inr (List.mem_cons_of_mem _ h2))
    · rw [List.mem_singleton] at h1
      exact h1 ▸ List.mem_append.mpr (Or.inr (List.mem_cons_self _ _))
  · have hc := h.count
    rw [hlive] at hc
    show (A ++ s.next_key :: B).length
        = s.notified_count + (s.queue ++ ([⟨s.next_key, wk⟩] : List Waiter)).length
    simp only [List.length_append, List.length_cons, List.length_nil] at hc ⊢
    omega

theorem InvI.inplace {s : Inner} {live : List Nat} (h : InvI s live)
    (k wk : Nat) :
    InvI { s with queue := replaceFirst s.queue k wk } live := by
  have hqk : queueKeys { s with queue := replaceFirst s.queue k wk } = queueKeys s := by
    simp [queueKeys, replaceFirst_map_key]
  have hlen : (replaceFirst s.queue k wk).length = s.queue.length := by
    have := congrArg List.length (replaceFirst_map_key s.queue k wk)
    simpa using this
  refine ⟨h.nlt, h.mle, ?_, ?_, ?_, h.livelt, h.livend, ?_, ?_⟩
  · rw [hqk]; exact h.qsorted
  · rw [hqk]; exact h.qlo
  · rw [hqk]; exact h.qhi
  · rw [hqk]; exact h.qlive
  · show live.length = s.notified_count + (replaceFirst s.queue k wk).length
    rw [hlen]
    exact h.count

theorem InvI.removeWaiting {s : Inner} {live : List Nat} (h : InvI s live)
    {A B : List Nat} {k : Nat} (hlive : live = A ++ k :: B)
    (hk : k ∈ queueKeys s) :
    InvI { s with queue := removeFirst s.queue k } (A ++ B) := by
  have hnd : (queueKeys s).Nodup := pairwise_lt_nodup h.qsorted
  have hqk : queueKeys { s with queue := removeFirst s.queue k }
      = (queueKeys s).erase k := by
    simp [queueKeys, removeFirst_map_key]
  have hsl : (A ++ B).Sublist (A ++ k :: B) :=
    (List.sublist_cons_self k B).append_left A
  have hsub : A ++ B ⊆ live := by
    rw [hlive]
    exact hsl.subset
  have herasesub : (queueKeys s).erase k ⊆ queueKeys s := (List.erase_sublist _ _).subset
  refine ⟨h.nlt, h.mle, ?_, ?_, ?_, ?_, ?_, ?_, ?_⟩
  · rw [hqk]
    exact h.qsorted.sublist (List.erase_sublist _ _)
  · rw [hqk]
    exact fun m hm => h.qlo m (herasesub hm)
  · rw [hqk]
    exact fun m hm => h.qhi m (herasesub hm)
  · exact fun m hm => h.livelt m (hsub hm)
  · exact (hlive ▸ h.livend).sublist hsl
  · rw [hqk]
    intro m hm
    have hmk : m ≠ k := by
      intro hmk
      exact (hnd.not_mem_erase) (hmk ▸ hm)
    have := h.qlive m (herasesub hm)
    rw [hlive] at this
    rcases List.mem_append.mp this with h1 | h1
    · exact List.mem_append.mpr (Or.inl h1)
    · rcases List.mem_cons.mp h1 with h2 | h2
      · exact absurd h2 hmk
      · exact List.mem_append.mpr (Or.inr h2)
  · have hc := h.count
    rw [hlive] at hc
    have hlen : (removeFirst s.queue k).length = s.queue.length - 1 := by
      have hmapl := congrArg List.length (removeFirst_map_key s.queue k)
      have herasel : ((queueKeys s).erase k).length = (queueKeys s).length - 1 :=
        List.length_erase_of_mem hk
      simp only [queueKeys] at herasel
      simp only [List.length_map] at hmapl herasel
      omega
    have hql : 0 < s.queue.length := by
      have : k ∈ s.queue.map Waiter.key := hk
      rcases List.mem_map.mp this with ⟨w, hw, _⟩
      exact List.length_pos.mpr (List.ne_nil_of_mem hw)
    simp only [List.length_append, List.length_cons] at hc ⊢
    omega

theorem InvI.pop {s : Inner} {live : List Nat} (h : InvI s live)
    (w : Waiter) (rest : List Waiter) (hq : s.queue = w :: rest) :
    InvI { s with
            queue := rest
            notified_count := s.notified_count + 1
            min_key := wrapAdd1 w.key } live := by
  have hkeys : queueKeys s = w.key :: rest.map Waiter.key := by
    simp [queueKeys, hq]
  have hwk : w.key < s.next_key := h.qhi w.key (by rw [hkeys]; exact List.mem_cons_self _ _)
  have hw : wrapAdd1 w.key = w.key + 1 := by
    have := h.nlt
    exact Nat.mod_eq_of_lt (by omega)
  have hsorted := h.qsorted
  rw [hkeys] at hsorted
  have hhead : ∀ m ∈ rest.map Waiter.key, w.key < m := (List.pairwise_cons.mp hsorted).1
  refine ⟨h.nlt, ?_, ?_, ?_, ?_, ?_, h.livend, ?_, ?_⟩
  · show wrapAdd1 w.key ≤ s.next_key
    omega
  · exact (List.pairwise_cons.mp hsorted).2
  · show ∀ m ∈ rest.map Waiter.key, wrapAdd1 w.key ≤ m
    intro m hm
    have := hhead m hm
    omega
  · intro m hm
    exact h.qhi m (by rw [hkeys]; exact List.mem_cons_of_mem _ hm)
  · exact h.livelt
  · intro m hm
    exact h.qlive m (by rw [hkeys]; exact List.mem_cons_of_mem _ hm)
  · have hc := h.count
    rw [hq] at hc
    simp only [List.length_cons] at hc ⊢
    omega

theorem InvI.nall {s : Inner} {live : List Nat} (h : InvI s live) :
    InvI { s with
            queue := []
            notified_count := s.notified_count + s.queue.length
            min_key := s.next_key } live := by
  refine ⟨h.nlt, le_refl _, ?_, ?_, ?_, h.livelt, h.livend, ?_, ?_⟩
  · simp [queueKeys]
  · intro m hm
    simp [queueKeys] at hm
  · intro m hm
    simp [queueKeys] at hm
  · intro m hm
    simp [queueKeys] at hm
  · have hc := h.count
    show live.length = (s.notified_count + s.queue.length) + ([] : List Waiter).length
    simp only [List.length_nil]
    omega

/-! ### Branch determination and handle-slot decomposition -/

theorem waiting_branch_true {s : Inner} {live : List Nat} (h : InvI s live)
    {k : Nat} (hk : k ∈ queueKeys s) :
    (s.is_in_waiting_range k && containsKey s.queue k) = true := by
  have h1 : s.is_in_waiting_range k = true := by
    unfold Inner.is_in_waiting_range
    have := h.qlo k hk
    simp [this]
  have h2 : containsKey s.queue k = true := (containsKey_iff _ _).mpr hk
  simp [h1, h2]

theorem waiting_branch_false {s : Inner} {k : Nat} (hk : k ∉ queueKeys s) :
    (s.is_in_waiting_range k && containsKey s.queue k) = false := by
  have h2 : containsKey s.queue k = false := by
    cases hcb : containsKey s.queue k
    · rfl
    · exact absurd ((containsKey_iff _ _).mp hcb) hk
  simp [h2]

theorem containsKey_false_of_not_mem {s : Inner} {k : Nat}
    (hk : k ∉ queueKeys s) : containsKey s.queue k = false := by
  cases hcb : containsKey s.queue k
  · rfl
  · exact absurd ((containsKey_iff _ _).mp hcb) hk

theorem filterMap_id_cons (a : Option Nat) (l : List (Option Nat)) :
    (a :: l).filterMap id = a.toList ++ l.filterMap id := by
  cases a <;> simp

theorem liveKeys_decomp (hs : List (Option Nat)) (i : Nat) (a : Option Nat)
    (h : hs[i]? = some a) (v : Option Nat) :
    liveKeys hs
      = liveKeys (hs.take i) ++ (a.toList ++ liveKeys (hs.drop (i + 1))) ∧
    liveKeys (hs.set i v)
      = liveKeys (hs.take i) ++ (v.toList ++ liveKeys (hs.drop (i + 1))) := by
  obtain ⟨h1, h2⟩ := set_decomp hs i a v h
  unfold liveKeys
  constructor
  · conv_lhs => rw [h1]
    rw [List.filterMap_append, filterMap_id_cons]
  · rw [h2, List.filterMap_append, filterMap_id_cons]

/-! ### World-level invariant preservation -/

theorem InvI.decSafe {w : World} (h : WorldInv w) : DecSafe w := by
  have hI : InvI w.wl.inner (liveKeys w.handles) := h
  intro k hk hnot
  have hkq : k ∉ queueKeys w.wl.inner := by
    intro hmem
    have hb := waiting_branch_true hI hmem
    rw [Bool.and_eq_true] at hb
    exact hnot ⟨hb.1, hb.2⟩
  have hkl : k ∈ liveKeys w.handles := by
    unfold liveKeys
    exact List.mem_filterMap.mpr ⟨some k, hk, rfl⟩
  obtain ⟨A, B, hAB⟩ := List.append_of_mem hkl
  exact hI.nc_pos hAB hkq

theorem applyW_inv (op : WOp) (w : World) (h : WorldInv w)
    (hnw : w.wl.inner.next_key + 1 < USIZE) : WorldInv (applyW op w) := by
  have hI : InvI w.wl.inner (liveKeys w.handles) := h
  show InvI (applyW op w).wl.inner (liveKeys (applyW op w).handles)
  cases op with
  | newHandle =>
    show InvI w.wl.inner (liveKeys (w.handles ++ [none]))
    rw [liveKeys_append_none]
    exact hI
  | setCtxW i wk =>
    cases hh : w.handles[i]? with
    | none =>
      simp only [applyW, hh]
      exact hI
    | some a =>
      cases a with
      | none =>
        obtain ⟨hl1, hl2⟩ :=
          liveKeys_decomp w.handles i none hh (some w.wl.inner.next_key)
        simp only [Option.toList_none, Option.toList_some, List.nil_append,
          List.singleton_append] at hl1 hl2
        simp only [applyW, hh]
        show InvI (w.wl.inner.insert wk).2
          (liveKeys (w.handles.set i (some (w.wl.inner.insert wk).1)))
        have hkey : (w.wl.inner.insert wk).1 = w.wl.inner.next_key := rfl
        rw [hkey, hl2]
        exact hI.insert_fresh hnw hl1 wk
      | some k =>
        by_cases hk : k ∈ queueKeys w.wl.inner
        · have hb := waiting_branch_true hI hk
          rw [Bool.and_eq_true] at hb
          obtain ⟨hl1, hl2⟩ := liveKeys_decomp w.handles i (some k) hh (some k)
          simp only [Option.toList_some, List.singleton_append] at hl1 hl2
          have h2 : (Inner.update w.wl.inner k wk).2
              = { w.wl.inner with queue := replaceFirst w.wl.inner.queue k wk } := by
            simp [Inner.update, hb.1, hb.2]
          have hkey : (Inner.update w.wl.inner k wk).1 = k := by
            simp [Inner.update, hb.1, hb.2]
          simp only [applyW, hh]
          show InvI (Inner.update w.wl.inner k wk).2
            (liveKeys (w.handles.set i (some (Inner.update w.wl.inner k wk).1)))
          rw [h2, hkey, hl2, ← hl1]
          exact hI.inplace k wk
        · have hcont := containsKey_false_of_not_mem hk
          obtain ⟨hl1, hl2⟩ :=
            liveKeys_decomp w.handles i (some k) hh (some w.wl.inner.next_key)
          simp only [Option.toList_some, List.singleton_append] at hl1 hl2
          have h2 : (Inner.update w.wl.inner k wk).2
              = ({ w.wl.inner with
                    notified_count := w.wl.inner.notified_count - 1 }.insert wk).2 := by
            simp [Inner.update, hcont]
          have hkey : (Inner.update w.wl.inner k wk).1 = w.wl.inner.next_key := by
            simp [Inner.update, hcont, Inner.insert]
          simp only [applyW, hh]
          show InvI (Inner.update w.wl.inner k wk).2
            (liveKeys (w.handles.set i (some (Inner.update w.wl.inner k wk).1)))
          rw [h2, hkey, hl2]
          exact (hI.consume hl1 hk).insert_fresh hnw rfl wk
  | finishW i =>
    cases hh : w.handles[i]? with
    | none =>
      simp only [applyW, hh]
      exact hI
    | some a =>
      cases a with
      | none =>
        obtain ⟨hl1, hl2⟩ := liveKeys_decomp w.handles i none hh none
        simp only [Option.toList_none, List.nil_append] at hl1 hl2
        simp only [applyW, hh]
        show InvI w.wl.inner (liveKeys (w.handles.set i none))
        rw [hl2, ← hl1]
        exact hI
      | some k =>
        obtain ⟨hl1, hl2⟩ := liveKeys_decomp w.handles i (some k) hh none
        simp only [Option.toList_some, Option.toList_none, List.singleton_append,
          List.nil_append] at hl1 hl2
        simp only [applyW, hh]
        show InvI (Inner.remove w.wl.inner k).2 (liveKeys (w.handles.set i none))
        rw [hl2]
        by_cases hk : k ∈ queueKeys w.wl.inner
        · have hb := waiting_branch_true hI hk
          rw [Bool.and_eq_true] at hb
          have h2 : (Inner.remove w.wl.inner k).2
              = { w.wl.inner with queue := removeFirst w.wl.inner.queue k } := by
            simp [Inner.remove, hb.1, hb.2]
          rw [h2]
          exact hI.removeWaiting hl1 hk
        · have hcont := containsKey_false_of_not_mem hk
          have h2 : (Inner.remove w.wl.inner k).2
              = { w.wl.inner with
                    notified_count := w.wl.inner.notified_count - 1 } := by
            simp [Inner.remove, hcont]
          rw [h2]
          exact hI.consume hl1 hk
  | cancelW i =>
    cases hh : w.handles[i]? with
    | none =>
      simp only [applyW, hh]
      exact hI
    | some a =>
      cases a with
      | none =>
        obtain ⟨hl1, hl2⟩ := liveKeys_decomp w.handles i none hh none
        simp only [Option.toList_none, List.nil_append] at hl1 hl2
        simp only [applyW, hh]
        show InvI w.wl.inner (liveKeys (w.handles.set i none))
        rw [hl2, ← hl1]
        exact hI
      | some k =>
        obtain ⟨hl1, hl2⟩ := liveKeys_decomp w.handles i (some k) hh none
        simp only [Option.toList_some, Option.toList_none, List.singleton_append,
          List.nil_append] at hl1 hl2
        simp only [applyW, hh]
        show InvI (Inner.cancel w.wl.inner k).2.1 (liveKeys (w.handles.set i none))
        rw [hl2]
        by_cases hk : k ∈ queueKeys w.wl.inner
        · have hb := waiting_branch_true hI hk
          rw [Bool.and_eq_true] at hb
          have h2 : (Inner.cancel w.wl.inner k).2.1
              = { w.wl.inner with queue := removeFirst w.wl.inner.queue k } := by
            simp [Inner.cancel, Inner.remove, hb.1, hb.2]
          rw [h2]
          exact hI.removeWaiting hl1 hk
        · have hcont := containsKey_false_of_not_mem hk
          have hcons := hI.consume hl1 hk
          cases hq : w.wl.inner.queue with
          | nil =>
            have h2 : (Inner.cancel w.wl.inner k).2.1
                = { w.wl.inner with
                      notified_count := w.wl.inner.notified_count - 1 } := by
              simp [Inner.cancel, Inner.remove, Inner.notify_first, hq, containsKey]
            rw [h2]
            exact hcons
          | cons x rest =>
            have hcont2 : containsKey (x :: rest) k = false := by
              rw [← hq]
              exact hcont
            have h2 : (Inner.cancel w.wl.inner k).2.1
                = { w.wl.inner with
                      queue := rest
                      notified_count := w.wl.inner.notified_count - 1 + 1
                      min_key := wrapAdd1 x.key } := by
              simp [Inner.cancel, Inner.remove, Inner.notify_first, hq, hcont2]
            rw [h2]
            exact hcons.pop x rest hq
  | tryFinishW i wk =>
    cases hh : w.handles[i]? with
    | none =>
      simp only [applyW, hh]
      exact hI
    | some a =>
      cases a with
      | none =>
        simp only [applyW, hh]
        show InvI w.wl.inner (liveKeys (w.handles.set i none))
        obtain ⟨hl1, hl2⟩ := liveKeys_decomp w.handles i none hh none
        simp only [Option.toList_none, List.nil_append] at hl1 hl2
        rw [hl2, ← hl1]
        exact hI
      | some k =>
        by_cases hk : k ∈ queueKeys w.wl.inner
        · have hb := waiting_branch_true hI hk
          rw [Bool.and_eq_true] at hb
          obtain ⟨hl1, hl2⟩ := liveKeys_decomp w.handles i (some k) hh (some k)
          simp only [Option.toList_some, List.singleton_append] at hl1 hl2
          have hup : Inner.update_if_pending w.wl.inner k wk
              = (true, { w.wl.inner with
                          queue := replaceFirst w.wl.inner.queue k wk }) := by
            simp [Inner.update_if_pending, hb.1, hb.2]
          simp only [applyW, hh, WaitHandle.try_finish, hup]
          show InvI { w.wl.inner with queue := replaceFirst w.wl.inner.queue k wk }
            (liveKeys (w.handles.set i (some k)))
          rw [hl2, ← hl1]
          exact hI.inplace k wk
        · have hcont := containsKey_false_of_not_mem hk
          obtain ⟨hl1, hl2⟩ := liveKeys_decomp w.handles i (some k) hh none
          simp only [Option.toList_some, Option.toList_none, List.singleton_append,
            List.nil_append] at hl1 hl2
          have hup : Inner.update_if_pending w.wl.inner k wk
              = (false, { w.wl.inner with
                           notified_count := w.wl.inner.notified_count - 1 }) := by
            simp [Inner.update_if_pending, hcont]
          simp only [applyW, hh, WaitHandle.try_finish, hup]
          show InvI { w.wl.inner with
                       notified_count := w.wl.inner.notified_count - 1 }
            (liveKeys (w.handles.set i none))
          rw [hl2]
          exact hI.consume hl1 hk
  | notifyOneW =>
    show InvI w.wl.notify_one.2.1.inner (liveKeys w.handles)
    by_cases hc : w.wl.flags &&& WAITING ≠ 0
    · cases hq : w.wl.inner.queue with
      | nil =>
        have h2 : w.wl.notify_one.2.1.inner = w.wl.inner := by
          simp [Waitlist.notify_one, hc, Inner.notify_first, hq, Guard.release]
        rw [h2]
        exact hI
      | cons x rest =>
        have h2 : w.wl.notify_one.2.1.inner
            = { w.wl.inner with
                  queue := rest
                  notified_count := w.wl.inner.notified_count + 1
                  min_key := wrapAdd1 x.key } := by
          simp [Waitlist.notify_one, hc, Inner.notify_first, hq, Guard.release]
        rw [h2]
        exact hI.pop x rest hq
    · have h2 : w.wl.notify_one.2.1.inner = w.wl.inner := by
        simp [Waitlist.notify_one, hc]
      rw [h2]
      exact hI
  | notifyAllW =>
    show InvI w.wl.notify_all.2.1.inner (liveKeys w.handles)
    by_cases hc : w.wl.flags &&& WAITING ≠ 0
    · have h2 : w.wl.notify_all.2.1.inner
          = { w.wl.inner with
                queue := []
                notified_count := w.wl.inner.notified_count + w.wl.inner.queue.length
                min_key := w.wl.inner.next_key } := by
        simp [Waitlist.notify_all, hc, Inner.notify_all, Guard.release]
      rw [h2]
      exact hI.nall
    · have h2 : w.wl.notify_all.2.1.inner = w.wl.inner := by
        simp [Waitlist.notify_all, hc]
      rw [h2]
      exact hI
  | notifyAnyW =>
    show InvI w.wl.notify_any.2.1.inner (liveKeys w.handles)
    by_cases hc : w.wl.flags &&& NOTIFIED = 0 ∧ w.wl.flags &&& WAITING ≠ 0
    · by_cases hn : w.wl.inner.notified_count = 0
      · cases hq : w.wl.inner.queue with
        | nil =>
          have h2 : w.wl.notify_any.2.1.inner = w.wl.inner := by
            simp [Waitlist.notify_any, hc, hn, Inner.notify_first, hq, Guard.release]
          rw [h2]
          exact hI
        | cons x rest =>
          have h2 : w.wl.notify_any.2.1.inner
              = { w.wl.inner with
                    queue := rest
                    notified_count := w.wl.inner.notified_count + 1
                    min_key := wrapAdd1 x.key } := by
            simp [Waitlist.notify_any, hc, hn, Inner.notify_first, hq, Guard.release]
          rw [h2]
          exact hI.pop x rest hq
      · have h2 : w.wl.notify_any.2.1.inner = w.wl.inner := by
          simp [Waitlist.notify_any, hc, hn, Guard.release]
        rw [h2]
        exact hI
    · have h2 : w.wl.notify_any.2.1.inner = w.wl.inner := by
        simp [Waitlist.notify_any, hc]
      rw [h2]
      exact hI

theorem remove_next (s : Inner) (k : Nat) :
    (s.remove k).2.next_key = s.next_key := by
  unfold Inner.remove
  split <;> rfl

theorem notify_first_next (s : Inner) :
    s.notify_first.2.1.next_key = s.next_key := by
  unfold Inner.notify_first
  split <;> rfl

theorem cancel_next (s : Inner) (k : Nat) :
    (s.cancel k).2.1.next_key = s.next_key := by
  unfold Inner.cancel
  show (if (s.remove k).1 = true then (s.remove k).2.notify_first
        else (false, (s.remove k).2, [])).2.1.next_key = s.next_key
  split
  · rw [notify_first_next, remove_next]
  · rw [remove_next]

theorem applyW_next_le (op : WOp) (w : World) :
    (applyW op w).wl.inner.next_key ≤ w.wl.inner.next_key + 1 := by
  have hwa : ∀ n : Nat, wrapAdd1 n ≤ n + 1 := fun n => Nat.mod_le _ _
  cases op with
  | newHandle => exact Nat.le_succ _
  | setCtxW i wk =>
    cases hh : w.handles[i]? with
    | none =>
      simp only [applyW, hh]
      exact Nat.le_succ _
    | some a =>
      cases a with
      | none =>
        simp only [applyW, hh]
        exact hwa _
      | some k =>
        simp only [applyW, hh]
        show (Inner.update w.wl.inner k wk).2.next_key ≤ _
        by_cases hb : (w.wl.inner.is_in_waiting_range k
            && containsKey w.wl.inner.queue k) = true
        · simp [Inner.update, hb]
        · rw [Bool.not_eq_true] at hb
          simp only [Inner.update, hb, Bool.false_eq_true, if_false]
          exact hwa _
  | finishW i =>
    cases hh : w.handles[i]? with
    | none => simp only [applyW, hh]; exact Nat.le_succ _
    | some a =>
      cases a with
      | none => simp only [applyW, hh]; exact Nat.le_succ _
      | some k =>
        simp only [applyW, hh]
        show (Inner.remove w.wl.inner k).2.next_key ≤ _
        by_cases hb : (w.wl.inner.is_in_waiting_range k
            && containsKey w.wl.inner.queue k) = true
        · simp [Inner.remove, hb]
        · rw [Bool.not_eq_true] at hb
          simp [Inner.remove, hb]
  | cancelW i =>
    cases hh : w.handles[i]? with
    | none => simp only [applyW, hh]; exact Nat.le_succ _
    | some a =>
      cases a with
      | none => simp only [applyW, hh]; exact Nat.le_succ _
      | some k =>
        simp only [applyW, hh]
        show (Inner.cancel w.wl.inner k).2.1.next_key ≤ _
        rw [cancel_next]
        exact Nat.le_succ _
  | tryFinishW i wk =>
    cases hh : w.handles[i]? with
    | none => simp only [applyW, hh]; exact Nat.le_succ _
    | some a =>
      cases a with
      | none => simp only [applyW, hh]; exact Nat.le_succ _
      | some k =>
        simp only [applyW, hh]
        by_cases hb : (w.wl.inner.is_in_waiting_range k
            && containsKey w.wl.inner.queue k) = true
        · simp [WaitHandle.try_finish, Inner.update_if_pending, hb, Guard.release]
        · rw [Bool.not_eq_true] at hb
          simp [WaitHandle.try_finish, Inner.update_if_pending, hb, Guard.release]
  | notifyOneW =>
    by_cases hc : w.wl.flags &&& WAITING ≠ 0
    · cases hq : w.wl.inner.queue with
      | nil => simp [applyW, Waitlist.notify_one, hc, Inner.notify_first, hq, Guard.release]
      | cons x rest =>
        simp [applyW, Waitlist.notify_one, hc, Inner.notify_first, hq, Guard.release]
    · simp [applyW, Waitlist.notify_one, hc]
  | notifyAllW =>
    by_cases hc : w.wl.flags &&& WAITING ≠ 0 <;>
      simp [applyW, Waitlist.notify_all, hc, Inner.notify_all, Guard.release]
  | notifyAnyW =>
    by_cases hc : w.wl.flags &&& NOTIFIED = 0 ∧ w.wl.flags &&& WAITING ≠ 0
    · by_cases hn : w.wl.inner.notified_count = 0
      · cases hq : w.wl.inner.queue with
        | nil =>
          simp [applyW, Waitlist.notify_any, hc, hn, Inner.notify_first, hq, Guard.release]
        | cons x rest =>
          simp [applyW, Waitlist.notify_any, hc, hn, Inner.notify_first, hq, Guard.release]
      · simp [applyW, Waitlist.notify_any, hc, hn, Guard.release]
    · simp [applyW, Waitlist.notify_any, hc]

theorem initialWorldInv : WorldInv World.init := by
  refine ⟨?_, ?_, ?_, ?_, ?_, ?_, ?_, ?_, ?_⟩ <;>
    simp [World.init, Waitlist.new, liveKeys, queueKeys, USIZE]

theorem runW_inv (ops : List WOp) :
    ∀ w : World, WorldInv w → w.wl.inner.next_key + ops.length < USIZE →
      WorldInv (runW ops w) := by
  induction ops with
  | nil =>
    intro w h _
    exact h
  | cons op t ih =>
    intro w h hb
    simp only [List.length_cons] at hb
    have h1 : WorldInv (applyW op w) := applyW_inv op w h (by omega)
    have h2 := applyW_next_le op w
    exact ih (applyW op w) h1 (by omega)

/-! ### Claim C10: counterexample across key wraparound, and the bounded form -/

theorem runW_append (l1 l2 : List WOp) :
    ∀ w : World, runW (l1 ++ l2) w = runW l2 (runW l1 w) := by
  induction l1 with
  | nil => intro w; rfl
  | cons op t ih =>
    intro w
    show runW (t ++ l2) (applyW op w) = _
    rw [ih]
    rfl

theorem replicate_set_none (n : Nat) :
    ∀ i : Nat, (List.replicate n (none : Option Nat)).set i none
      = List.replicate n none := by
  induction n with
  | zero => intro i; rfl
  | succ m ih =>
    intro i
    cases i with
    | zero => simp [List.replicate_succ]
    | succ j => simp [List.replicate_succ, ih j]

theorem cycle_step (n : Nat) :
    runW (cycleOps n)
      ⟨⟨2, ⟨[⟨0, 0⟩], 0, 0, n + 1⟩⟩, some 0 :: List.replicate n none⟩ =
      ⟨⟨2, ⟨[⟨0, 0⟩], 0, 0, (n + 2) % USIZE⟩⟩,
       some 0 :: List.replicate (n + 1) none⟩ := by
  have hne : (0 : Nat) ≠ n + 1 := by omega
  show applyW (WOp.finishW (n + 1))
      (applyW (WOp.setCtxW (n + 1) 0)
        (applyW WOp.newHandle
          ⟨⟨2, ⟨[⟨0, 0⟩], 0, 0, n + 1⟩⟩, some 0 :: List.replicate n none⟩)) = _
  have e1 : applyW WOp.newHandle
      ⟨⟨2, ⟨[⟨0, 0⟩], 0, 0, n + 1⟩⟩, some 0 :: List.replicate n none⟩
      = ⟨⟨2, ⟨[⟨0, 0⟩], 0, 0, n + 1⟩⟩,
         some 0 :: List.replicate (n + 1) none⟩ := by
    show (⟨⟨2, ⟨[⟨0, 0⟩], 0, 0, n + 1⟩⟩,
      (some 0 :: List.replicate n none) ++ [none]⟩ : World) = _
    rw [List.cons_append, ← List.replicate_succ']
  rw [e1]
  have hget1 : (some 0 :: List.replicate (n + 1) (none : Option Nat))[n + 1]?
      = some none := by
    rw [List.getElem?_cons_succ, List.getElem?_replicate, if_pos (Nat.lt_succ_self n)]
  have e2 : applyW (WOp.setCtxW (n + 1) 0)
      ⟨⟨2, ⟨[⟨0, 0⟩], 0, 0, n + 1⟩⟩, some 0 :: List.replicate (n + 1) none⟩
      = ⟨⟨2, ⟨[⟨0, 0⟩, ⟨n + 1, 0⟩], 0, 0, wrapAdd1 (n + 1)⟩⟩,
         some 0 :: (List.replicate (n + 1) none).set n (some (n + 1))⟩ := by
    simp only [applyW, hget1]
    simp [WaitHandle.set_context, Inner.insert, Guard.release, flagsOf,
      WAITING, NOTIFIED, List.set_cons_succ]
  rw [e2]
  have hget2 : (some 0 ::
      (List.replicate (n + 1) (none : Option Nat)).set n (some (n + 1)))[n + 1]?
      = some (some (n + 1)) := by
    rw [List.getElem?_cons_succ, List.getElem?_set_self]
    simp
  have e3 : applyW (WOp.finishW (n + 1))
      ⟨⟨2, ⟨[⟨0, 0⟩, ⟨n + 1, 0⟩], 0, 0, wrapAdd1 (n + 1)⟩⟩,
       some 0 :: (List.replicate (n + 1) none).set n (some (n + 1))⟩
      = ⟨⟨2, ⟨[⟨0, 0⟩], 0, 0, wrapAdd1 (n + 1)⟩⟩,
         some 0 :: List.replicate (n + 1) none⟩ := by
    simp only [applyW, hget2]
    simp [WaitHandle.finish, Inner.remove, Inner.is_in_waiting_range,
      containsKey, removeFirst, Guard.release, flagsOf, WAITING, NOTIFIED,
      List.set_cons_succ, List.set_set, replicate_set_none, hne]
  rw [e3]
  rfl

theorem cycles_eval : ∀ n : Nat, n ≤ USIZE - 1 →
    runW (cycles n) ⟨⟨2, ⟨[⟨0, 0⟩], 0, 0, 1⟩⟩, [some 0]⟩ =
      ⟨⟨2, ⟨[⟨0, 0⟩], 0, 0, (n + 1) % USIZE⟩⟩, some 0 :: List.replicate n none⟩ := by
  have hU : USIZE = 18446744073709551616 := rfl
  intro n hn
  induction n with
  | zero =>
    show (⟨⟨2, ⟨[⟨0, 0⟩], 0, 0, 1⟩⟩, [some 0]⟩ : World) = _
    rw [Nat.mod_eq_of_lt (by omega)]
    rfl
  | succ m ih =>
    have hm : m ≤ USIZE - 1 := by omega
    show runW (cycles m ++ cycleOps m) _ = _
    rw [runW_append, ih hm, Nat.mod_eq_of_lt (by omega : m + 1 < USIZE)]
    exact cycle_step m

theorem badSeq_eval :
    runW badSeq World.init =
      ⟨⟨2, ⟨[⟨0, 0⟩], 0, 1, 1⟩⟩, some 0 :: List.replicate USIZE none⟩ := by
  have hU1 : USIZE - 1 + 1 = USIZE := by decide
  show runW ([WOp.newHandle, WOp.setCtxW 0 0] ++ cycles (USIZE - 1) ++
    [WOp.newHandle, WOp.setCtxW USIZE 0, WOp.notifyOneW, WOp.finishW USIZE])
      World.init = _
  rw [runW_append, runW_append]
  have e0 : runW [WOp.newHandle, WOp.setCtxW 0 0] World.init
      = ⟨⟨2, ⟨[⟨0, 0⟩], 0, 0, 1⟩⟩, [some 0]⟩ := by decide
  rw [e0, cycles_eval (USIZE - 1) (le_refl _),
    (by decide : (USIZE - 1 + 1) % USIZE = 0)]
  obtain ⟨m, hm⟩ : ∃ m : Nat, USIZE = m + 1 := ⟨USIZE - 1, hU1.symm⟩
  rw [hm]
  simp only [Nat.add_sub_cancel]
  show applyW (WOp.finishW (m + 1))
      (applyW WOp.notifyOneW
        (applyW (WOp.setCtxW (m + 1) 0)
          (applyW WOp.newHandle
            ⟨⟨2, ⟨[⟨0, 0⟩], 0, 0, 0⟩⟩, some 0 :: List.replicate m none⟩))) = _
  have e1 : applyW WOp.newHandle
      ⟨⟨2, ⟨[⟨0, 0⟩], 0, 0, 0⟩⟩, some 0 :: List.replicate m none⟩
      = ⟨⟨2, ⟨[⟨0, 0⟩], 0, 0, 0⟩⟩, some 0 :: List.replicate (m + 1) none⟩ := by
    show (⟨⟨2, ⟨[⟨0, 0⟩], 0, 0, 0⟩⟩,
      (some 0 :: List.replicate m none) ++ [none]⟩ : World) = _
    rw [List.cons_append, ← List.replicate_succ']
  rw [e1]
  have hget1 : (some 0 :: List.replicate (m + 1) (none : Option Nat))[m + 1]?
      = some none := by
    rw [List.getElem?_cons_succ, List.getElem?_replicate, if_pos (Nat.lt_succ_self m)]
  have hwl1 : WaitHandle.set_context ⟨2, ⟨[⟨0, 0⟩], 0, 0, 0⟩⟩ none 0
      = ⟨true, some 0, ⟨2, ⟨[⟨0, 0⟩, ⟨0, 0⟩], 0, 0, 1⟩⟩, []⟩ := by decide
  have e2 : applyW (WOp.setCtxW (m + 1) 0)
      ⟨⟨2, ⟨[⟨0, 0⟩], 0, 0, 0⟩⟩, some 0 :: List.replicate (m + 1) none⟩
      = ⟨⟨2, ⟨[⟨0, 0⟩, ⟨0, 0⟩], 0, 0, 1⟩⟩,
         some 0 :: (List.replicate (m + 1) none).set m (some 0)⟩ := by
    simp only [applyW, hget1, hwl1, List.set_cons_succ]
  rw [e2]
  have hwl2 : (⟨2, ⟨[⟨0, 0⟩, ⟨0, 0⟩], 0, 0, 1⟩⟩ : Waitlist).notify_one.2.1
      = ⟨6, ⟨[⟨0, 0⟩], 1, 1, 1⟩⟩ := by decide
  have e3 : applyW WOp.notifyOneW
      ⟨⟨2, ⟨[⟨0, 0⟩, ⟨0, 0⟩], 0, 0, 1⟩⟩,
       some 0 :: (List.replicate (m + 1) none).set m (some 0)⟩
      = ⟨⟨6, ⟨[⟨0, 0⟩], 1, 1, 1⟩⟩,
         some 0 :: (List.replicate (m + 1) none).set m (some 0)⟩ := by
    simp only [applyW, hwl2]
  rw [e3]
  have hget2 : (some 0 ::
      (List.replicate (m + 1) (none : Option Nat)).set m (some 0))[m + 1]?
      = some (some 0) := by
    rw [List.getElem?_cons_succ, List.getElem?_set_self]
    simp
  have hwl3 : WaitHandle.finish ⟨6, ⟨[⟨0, 0⟩], 1, 1, 1⟩⟩ (some 0)
      = ⟨true, none, ⟨2, ⟨[⟨0, 0⟩], 0, 1, 1⟩⟩, []⟩ := by decide
  have hset2 : (some 0 ::
      (List.replicate (m + 1) (none : Option Nat)).set m (some 0)).set (m + 1) none
      = some 0 :: List.replicate (m + 1) none := by
    rw [List.set_cons_succ, List.set_set, replicate_set_none]
  simp only [applyW, hget2, hwl3, hset2]

/-- Counterexample to C10: the legal sequence `badSeq` (every key is issued by
the engine, each handle registered and finished at most once) reaches a state
in which handle `0` is live with a key not found among the waiting entries
while `notified_count = 0` — the very next `finish`/`set_context`/`try_finish`
on that handle underflows the unguarded decrement.  The sequence needs the key
counter to wrap: it is longer than `USIZE` operations. -/
theorem C10_counterexample : ¬ DecSafe (runW badSeq World.init) := by
  rw [badSeq_eval]
  intro hds
  have h0 := hds 0 (List.mem_cons_self _ _) (by decide)
  exact absurd h0 (by decide)

/-- C10 (amended): underflow safety holds for every legal operation sequence of
fewer than `USIZE` operations (so the key counter cannot lap a live handle):
in every reachable state, whenever a live handle's key is not found among the
waiting entries — the situation in which `remove`, `update` and
`update_if_pending` decrement without a guard — `notified_count` is strictly
positive, so the decrements never underflow. -/
theorem C10_underflow_safety (ops : List WOp) (h : ops.length < USIZE) :
    DecSafe (runW ops World.init) := by
  apply InvI.decSafe
  apply runW_inv ops World.init initialWorldInv
  show World.init.wl.inner.next_key + ops.length < USIZE
  simpa [World.init, Waitlist.new] using h

/-- Witness for C10's amended theorem: a short concrete run (register, notify,
finish) is decrement-safe. -/
theorem C10_witness :
    DecSafe (runW [WOp.newHandle, WOp.setCtxW 0 7, WOp.notifyOneW, WOp.finishW 0]
      World.init) :=
  C10_underflow_safety [WOp.newHandle, WOp.setCtxW 0 7, WOp.notifyOneW, WOp.finishW 0]
    (by decide)

end WL
